import Mathlib

/-!
Verification of the effective-security/metrics library.

This file gives a shallow embedding, in Lean 4, of the parts of the
repository that the specification talks about:

* `Metrics.AggregateSample` with `Ingest`, `Mean` and `Stddev`
  (package `metrics`, sample aggregation);
* the in-memory interval aggregator `Metrics.InmemSink` with
  `SetGauge`, `IncrCounter`, `AddSample` and `Data`
  (package `metrics`, inmem sink);
* the prometheus sink's key flattener `Prom.flattenKey` and the
  expiry sweep `Prom.collectAtTime` (package `prometheus`);
* the cloudwatch sink's `CW.dimensions` (package `cloudwatch`);
* the prometheus-to-cloudwatch bridge's `PromCW.getDimensions`
  (package `promcw`);
* the statsd transport's producer-side `Statsd.pushMetric`
  (package `statsd`).

Modelling conventions: Go `float64` values are modelled as exact
rationals (`ℚ`); `time.Time` and `time.Duration` are modelled as
integers (nanoseconds, `ℤ`); Go maps are modelled as association
lists with `lookupA`/`insertA`; a Go pointer to a heap-allocated
`AggregateSample` is modelled as an index (`ptr : ℕ`) into an
explicit heap (`List AggregateSample`) carried in the sink state;
a Go `panic` is modelled as the `Except.error` branch of an
`Except`-valued function.
-/

namespace Metrics

/-- `Tag` is used to add dimensions to metrics (field names as in the
Go struct: `Name`, `Value`). -/
structure Tag where
  Name : String
  Value : String
deriving DecidableEq

/-- `AggregateSample` is used to hold aggregate metrics about a sample.
Fields mirror the Go struct: `Count int`, `Rate`, `Sum`, `SumSq`,
`Min`, `Max` (all `float64`, modelled as `ℚ`), `LastUpdated time.Time`
(modelled as `ℤ` nanoseconds). -/
structure AggregateSample where
  Count : ℤ
  Rate : ℚ
  Sum : ℚ
  SumSq : ℚ
  Min : ℚ
  Max : ℚ
  LastUpdated : ℤ
deriving DecidableEq

/-- The zero value `AggregateSample{}` a fresh Go allocation starts from. -/
def AggregateSample.fresh : AggregateSample :=
  { Count := 0, Rate := 0, Sum := 0, SumSq := 0, Min := 0, Max := 0, LastUpdated := 0 }

/-- `Ingest` is used to update a sample.  Following the Go source:
the count is incremented first, the min/max tests compare against the
old min/max but see the already-incremented count, and the rate is
recomputed from the updated sum.  `time.Now()` is passed explicitly
as `now`. -/
def AggregateSample.Ingest (a : AggregateSample) (v rateDenom : ℚ) (now : ℤ) :
    AggregateSample :=
  let count := a.Count + 1
  { Count := count
    Sum := a.Sum + v
    SumSq := a.SumSq + v * v
    Min := if v < a.Min ∨ count = 1 then v else a.Min
    Max := if a.Max < v ∨ count = 1 then v else a.Max
    Rate := (a.Sum + v) / rateDenom
    LastUpdated := now }

/-- `Mean` computes a mean of the values; the `Count == 0` branch guards
the division. -/
def AggregateSample.Mean (a : AggregateSample) : ℚ :=
  if a.Count = 0 then 0 else a.Sum / (a.Count : ℚ)

/-- `Stddev` computes the standard deviation from count, sum and
sum-of-squares: `sqrt((count·sumSq − sum²) / (count·(count−1)))`,
returning 0 when the divisor is 0 (i.e. when the integer product
`count*(count-1)` vanishes). -/
noncomputable def AggregateSample.Stddev (a : AggregateSample) : ℝ :=
  let num : ℚ := (a.Count : ℚ) * a.SumSq - a.Sum ^ 2
  let div : ℚ := ((a.Count * (a.Count - 1) : ℤ) : ℚ)
  if div = 0 then 0 else Real.sqrt ((num / div : ℚ) : ℝ)

/-- Sequential ingestion of a list of values into a fresh sample. -/
def ingestList (vs : List ℚ) (rateDenom : ℚ) (now : ℤ) : AggregateSample :=
  vs.foldl (fun a v => a.Ingest v rateDenom now) AggregateSample.fresh

/-- Go map lookup `m[k]` on an association-list model of a map. -/
def lookupA {α : Type} (k : String) : List (String × α) → Option α
  | [] => none
  | (k', v) :: t => if k' = k then some v else lookupA k t

/-- Go map insert `m[k] = v` on an association-list model of a map:
replaces the existing binding or appends a new one. -/
def insertA {α : Type} (k : String) (v : α) : List (String × α) → List (String × α)
  | [] => [(k, v)]
  | (k', v') :: t => if k' = k then (k, v) :: t else (k', v') :: insertA k v t

/-- `GaugeValue` as stored by the inmem sink (`Name`, `Value`, `Labels`). -/
structure GaugeValue where
  Name : String
  Value : ℚ
  Labels : List Tag
deriving DecidableEq

/-- `SampledValue` as stored by the inmem sink.  The Go struct holds a
pointer `AggregateSample *AggregateSample`; the pointer is modelled as
an index `ptr` into the sink's explicit heap of aggregate samples. -/
structure SampledValue where
  Name : String
  ptr : ℕ
  Labels : List Tag
deriving DecidableEq

/-- `IntervalMetrics` stores the aggregated metrics for a specific
interval: the interval start time and one map per quantity kind. -/
structure IntervalMetrics where
  Interval : ℤ
  Gauges : List (String × GaugeValue)
  Counters : List (String × SampledValue)
  Samples : List (String × SampledValue)
deriving DecidableEq

/-- `NewIntervalMetrics` creates a new `IntervalMetrics` for a given
interval with empty maps. -/
def NewIntervalMetrics (intv : ℤ) : IntervalMetrics :=
  { Interval := intv, Gauges := [], Counters := [], Samples := [] }

/-- `InmemSink` provides a MetricSink that does in-memory aggregation.
`heap` is the explicit model of the Go heap holding the
`AggregateSample` allocations that `SampledValue.ptr` indexes point
into. -/
structure InmemSink where
  interval : ℤ
  retain : ℤ
  maxIntervals : ℤ
  intervals : List IntervalMetrics
  rateDenom : ℚ
  heap : List AggregateSample
deriving DecidableEq

/-- Nanoseconds in `time.Second`. -/
def nsPerSecond : ℤ := 1000000000

/-- `NewInmemSink` is used to construct a new in-memory sink from an
aggregation interval and maximum retention period (both in
nanoseconds).  As in the source it performs no validation:
`maxIntervals = int(retain / interval)` (Go's `int64` division
truncates toward zero) and
`rateDenom = float64(interval.Nanoseconds()) / float64(time.Second.Nanoseconds())`. -/
def NewInmemSink (interval retain : ℤ) : InmemSink :=
  { interval := interval
    retain := retain
    maxIntervals := retain.tdiv interval
    intervals := []
    rateDenom := (interval : ℚ) / (nsPerSecond : ℚ)
    heap := [] }

/-- Go's `t.Truncate(d)`: rounds `t` down to a multiple of `d`
(returns `t` unchanged when `d ≤ 0`). -/
def truncateTime (t d : ℤ) : ℤ :=
  if d ≤ 0 then t else t - t.emod d

/-- The list manipulation in `createInterval` after appending the new
current interval: if the slice has grown to `maxIntervals` or beyond,
only the last `maxIntervals` elements are kept.  (With
`maxIntervals = 0` this empties the slice, exactly as the
`copy`/reslice in the source does.) -/
def truncateIntervals (maxIntervals : ℤ) (l : List IntervalMetrics) : List IntervalMetrics :=
  if maxIntervals ≤ (l.length : ℤ) then l.drop (l.length - maxIntervals.toNat) else l

/-- `createInterval` with the `getExistingInterval` fast path folded in
(the model is sequential, so the double-checked locking collapses):
return the sink unchanged if the last interval already has start time
`intv`, otherwise append a fresh interval and truncate the retained
ring. -/
def createInterval (intv : ℤ) (s : InmemSink) : InmemSink :=
  match s.intervals.getLast? with
  | some last =>
      if last.Interval = intv then s
      else { s with intervals := truncateIntervals s.maxIntervals (s.intervals ++ [NewIntervalMetrics intv]) }
  | none =>
      { s with intervals := truncateIntervals s.maxIntervals (s.intervals ++ [NewIntervalMetrics intv]) }

/-- `getInterval` returns (here: ensures) the current interval to write
to, for wall-clock time `now`. -/
def getInterval (now : ℤ) (s : InmemSink) : InmemSink :=
  createInterval (truncateTime now s.interval) s

/-- Apply an update `f` to the current interval (and the heap), as the
emission operations do through the `*IntervalMetrics` returned by
`getInterval`.  When `maxIntervals ≤ 0` the freshly created interval is
truncated straight out of the retained slice; the source then mutates a
detached object through the returned pointer, so the update is applied
to a discarded interval: the intervals list is unchanged and only the
heap effects survive, which is what the `else` branches model. -/
def modifyCurrent (now : ℤ)
    (f : IntervalMetrics → List AggregateSample → IntervalMetrics × List AggregateSample)
    (s : InmemSink) : InmemSink :=
  let intv := truncateTime now s.interval
  let s' := createInterval intv s
  match s'.intervals.getLast? with
  | some last =>
      if last.Interval = intv then
        let (iv', heap') := f last s'.heap
        { s' with intervals := s'.intervals.dropLast ++ [iv'], heap := heap' }
      else
        let (_, heap') := f (NewIntervalMetrics intv) s'.heap
        { s' with heap := heap' }
  | none =>
      let (_, heap') := f (NewIntervalMetrics intv) s'.heap
      { s' with heap := heap' }

/-- Replace the space character by an underscore, as the
`strings.NewReplacer(" ", "_")` used by `flattenKeyLabels` does.
(Character-by-character map, written over the underlying character
list so that it evaluates by kernel reduction.) -/
def replaceSpaces (s : String) : String :=
  ⟨s.data.map (fun c => if c = ' ' then '_' else c)⟩

/-- `InmemSink.flattenKeyLabels`: flattens the key along with its
labels (`;name=value` appended per tag, in order), replacing spaces;
returns the flattened hash and the original key as the display name. -/
def flattenKeyLabels (key : String) (tags : List Tag) : String × String :=
  (replaceSpaces (tags.foldl (fun b l => b ++ ";" ++ l.Name ++ "=" ++ l.Value) key), key)

/-- `Ingest` through a pointer: update the heap cell `p` in place. -/
def heapIngest (heap : List AggregateSample) (p : ℕ) (v rateDenom : ℚ) (now : ℤ) :
    List AggregateSample :=
  match heap.get? p with
  | some a => heap.set p (a.Ingest v rateDenom now)
  | none => heap

/-- `InmemSink.SetGauge` retains the last value set: the gauge map
entry for the flattened key is replaced wholesale. -/
def InmemSink.SetGauge (s : InmemSink) (now : ℤ) (key : String) (val : ℚ) (tags : List Tag) :
    InmemSink :=
  let kn := flattenKeyLabels key tags
  modifyCurrent now
    (fun iv heap =>
      ({ iv with Gauges := insertA kn.1 { Name := kn.2, Value := val, Labels := tags } iv.Gauges },
       heap)) s

/-- `InmemSink.IncrCounter` accumulates values: on first touch a fresh
`AggregateSample` is allocated on the heap and registered in the
counter map; in either case the value is ingested through the (shared)
pointer. -/
def InmemSink.IncrCounter (s : InmemSink) (now : ℤ) (key : String) (val : ℚ) (tags : List Tag) :
    InmemSink :=
  let kn := flattenKeyLabels key tags
  modifyCurrent now
    (fun iv heap =>
      match lookupA kn.1 iv.Counters with
      | some sv => (iv, heapIngest heap sv.ptr val s.rateDenom now)
      | none =>
          let p := heap.length
          ({ iv with Counters := insertA kn.1 { Name := kn.2, ptr := p, Labels := tags } iv.Counters },
           heapIngest (heap ++ [AggregateSample.fresh]) p val s.rateDenom now)) s

/-- `InmemSink.AddSample` routes into the sample map exactly as
`IncrCounter` routes into the counter map. -/
def InmemSink.AddSample (s : InmemSink) (now : ℤ) (key : String) (val : ℚ) (tags : List Tag) :
    InmemSink :=
  let kn := flattenKeyLabels key tags
  modifyCurrent now
    (fun iv heap =>
      match lookupA kn.1 iv.Samples with
      | some sv => (iv, heapIngest heap sv.ptr val s.rateDenom now)
      | none =>
          let p := heap.length
          ({ iv with Samples := insertA kn.1 { Name := kn.2, ptr := p, Labels := tags } iv.Samples },
           heapIngest (heap ++ [AggregateSample.fresh]) p val s.rateDenom now)) s

/-- `InmemSink.Data` retrieves all the aggregated metrics.  The source
first forces creation of the current interval, then copies the
interval slice, copies the older `*IntervalMetrics` pointers as-is and
gives the current interval fresh `Gauges`/`Counters`/`Samples` maps
populated entry by entry; since a counter/sample map entry is a
`SampledValue` holding a pointer, the copied entry shares the pointed-to
`AggregateSample` (here: the `ptr` heap index) with the live interval.
In this functional model an entry-by-entry map copy is the map value
itself, so the snapshot is the intervals list; dereferencing a
snapshot entry still goes through the live heap.  When the intervals
slice is empty after `getInterval` (possible only with
`maxIntervals ≤ 0`) the source indexes `intervals[:n-1]` with `n = 0`
and panics; that branch returns `none`. -/
def InmemSink.Data (s : InmemSink) (now : ℤ) : Option (List IntervalMetrics) × InmemSink :=
  let s' := getInterval now s
  match s'.intervals with
  | [] => (none, s')
  | _ => (some s'.intervals, s')

/-- What a consumer of `Data` observes for counter key `k` in snapshot
interval `iv`: it follows the `SampledValue`'s aggregate pointer into
the heap as it stands at read time. -/
def readCounter (heap : List AggregateSample) (iv : IntervalMetrics) (k : String) :
    Option AggregateSample :=
  (lookupA k iv.Counters).bind (fun sv => heap.get? sv.ptr)

/-- A sequence of `IncrCounter` calls for one key at one time. -/
def applyIncrs (now : ℤ) (key : String) (tags : List Tag) (vs : List ℚ) (s : InmemSink) :
    InmemSink :=
  vs.foldl (fun s v => s.IncrCounter now key v tags) s

/-- The sink state reached by incrementing one counter key within one
interval: a single current interval holding one counter entry whose
aggregate pointer is heap cell 0 (the canonical form `IncrCounter`
produces from a fresh sink, see `incr_counter_first`). -/
def singleCounterState (i r now : ℤ) (key : String) (tags : List Tag) (a : AggregateSample) :
    InmemSink :=
  { NewInmemSink i r with
    intervals := [{ Interval := truncateTime now i
                    Gauges := []
                    Counters := [((flattenKeyLabels key tags).1,
                      { Name := (flattenKeyLabels key tags).2, ptr := 0, Labels := tags })]
                    Samples := [] }]
    heap := [a] }

end Metrics

namespace Prom

open Metrics

/-- The prometheus sink's `gauge` registry entry: the embedded
`prometheus.Gauge` (an external threadsafe cell) is modelled by its
current value, plus `updatedAt` and `canDelete` as in the Go struct.
The `gauges`, `summaries` and `counters` maps all store entries of
this shape and `collectAtTime` applies the identical sweep logic to
each of the three, so the sweep is embedded once over it. -/
structure Gauge where
  value : ℚ
  updatedAt : ℤ
  canDelete : Bool
deriving DecidableEq

/-- `collectAtTime` for one registry: for every entry, when expiry is
enabled (`expiration ≠ 0`) and `updatedAt + expiration` is strictly
before `t`, a deletable entry is deleted and not collected; every
other entry is collected and kept.  The collected (rendered) entries
and the entries remaining in the map after the sweep are therefore the
same filtered list, which this function returns. -/
def collectAtTime (expiration t : ℤ) (m : List (String × Gauge)) :
    List (String × Gauge) :=
  m.filter (fun kv =>
    !(decide (expiration ≠ 0) && decide (kv.2.updatedAt + expiration < t) && kv.2.canDelete))

/-- The `forbiddenCharsReplacer` of the prometheus sink: space, `.`,
`=`, `-` and `/` become `_`. -/
def sanitizeKey (s : String) : String :=
  ⟨s.data.map (fun c => if c = ' ' ∨ c = '.' ∨ c = '=' ∨ c = '-' ∨ c = '/' then '_' else c)⟩

/-- `flattenKey` of the prometheus sink: the display key is the
sanitized `_`-join of the name parts; the hash starts from the key and
appends `;Name=Value` for every label in the order supplied. -/
def flattenKey (parts : List String) (labels : List Tag) : String × String :=
  let key := sanitizeKey (String.intercalate "_" parts)
  (key, labels.foldl (fun h l => h ++ ";" ++ l.Name ++ "=" ++ l.Value) key)

end Prom

namespace CW

open Metrics

/-- A CloudWatch dimension (name/value pair). -/
structure Dimension where
  Name : String
  Value : String
deriving DecidableEq

/-- The cloudwatch sink's `dimensions` helper: converts the tags
one-for-one and then, when more than 10 dimensions were produced,
calls `logger.Panicf("AWS does not support more than 10 dimentions: %v", ds)`.
The panic is modelled as the `Except.error` branch. -/
def dimensions (labels : List Tag) : Except String (List Dimension) :=
  let ds := labels.map (fun v => { Name := v.Name, Value := v.Value })
  if 10 < ds.length then
    Except.error "AWS does not support more than 10 dimentions"
  else
    Except.ok ds

/-- The fields of a `cloudwatch.MetricDatum` that the sink fills in on
the first write of a gauge/counter key. -/
structure MetricDatum where
  MetricName : String
  Timestamp : ℤ
  Dimensions : List Dimension
  Value : ℚ
deriving DecidableEq

/-- The datum construction performed by the cloudwatch sink's
`SetGauge`/`IncrCounter` when the key is not yet present: it calls
`dimensions(tags)`, so the emission call panics (errors here) whenever
the tag list exceeds 10 entries. -/
def newDatum (key : String) (now : ℤ) (val : ℚ) (tags : List Tag) :
    Except String MetricDatum :=
  (dimensions tags).map (fun ds =>
    { MetricName := key, Timestamp := now, Dimensions := ds, Value := val })

end CW

namespace PromCW

open Metrics

/-- Label names treated specially by the bridge. -/
def metricNameLabel : String := "__name__"

/-- High-resolution marker label. -/
def cwHighResLabel : String := "__cw_high_res"

/-- Unit marker label. -/
def cwUnitLabel : String := "__cw_unit"

/-- A prometheus metric's label set (`model.Metric`), as an
association list from label name to label value. -/
def Metric : Type := List (String × String)

/-- The per-label body of `getDimensions`' loop: skip empty names and
empty values; otherwise emit the dimension and, when replacement is
configured, the (possibly replaced) dimension. -/
def dimStep (m : Metric) (replaceDims : List (String × String))
    (acc : List CW.Dimension × List CW.Dimension) (name : String) :
    List CW.Dimension × List CW.Dimension :=
  if name ≠ "" then
    let val := (lookupA name m).getD ""
    if val ≠ "" then
      let acc1 := acc.1 ++ [{ Name := name, Value := val : CW.Dimension }]
      let acc2 :=
        if replaceDims ≠ [] then
          match lookupA name replaceDims with
          | some replacement => acc.2 ++ [{ Name := name, Value := replacement : CW.Dimension }]
          | none => acc.2 ++ [{ Name := name, Value := val : CW.Dimension }]
        else acc.2
      (acc1, acc2)
    else acc
  else acc

/-- The loop of `getDimensions` over the sorted label names. -/
def dimsOfNames (m : Metric) (replaceDims : List (String × String)) (names : List String) :
    List CW.Dimension × List CW.Dimension :=
  names.foldl (dimStep m replaceDims) ([], [])

/-- The untruncated dimension lists `getDimensions` builds: label
names except `__name__`, `__cw_high_res` and `__cw_unit`, sorted as by
`sort.Strings` (modelled with insertion sort, which produces the same
sorted result), then run through the loop above. -/
def rawDimensions (m : Metric) (replaceDims : List (String × String)) :
    List CW.Dimension × List CW.Dimension :=
  let names := (m.map Prod.fst).filter
    (fun k => !(k = metricNameLabel ∨ k = cwHighResLabel ∨ k = cwUnitLabel : Bool))
  dimsOfNames m replaceDims (names.insertionSort (fun a b => a ≤ b))

/-- The final truncation `if len(dims) > num { dims = dims[:num] }`. -/
def truncDims (num : ℤ) (dims : List CW.Dimension) : List CW.Dimension :=
  if (num : ℤ) < (dims.length : ℤ) then dims.take num.toNat else dims

/-- `getDimensions` of the promcw bridge: returns up to `num`
dimensions for the metric (one per label except the special labels),
sorted by label name, truncating deterministically to the first `num`
rather than failing; the second component is the replaced-dimension
variant.  The two early returns mirror the source's guards for an
empty metric and for a metric carrying only `__name__`. -/
def getDimensions (m : Metric) (num : ℤ) (replaceDims : List (String × String)) :
    List CW.Dimension × List CW.Dimension :=
  if m.length = 0 then ([], [])
  else if m.length = 1 ∧ (lookupA metricNameLabel m).isSome then ([], [])
  else
    let raw := rawDimensions m replaceDims
    (truncDims num raw.1, truncDims num raw.2)

end PromCW

namespace Statsd

/-- The statsd sink's metric queue capacity (`make(chan string, 4096)`). -/
def queueCapacity : ℕ := 4096

/-- `pushMetric` does a non-blocking push to the metrics queue:
`select { case queue <- m: default: }` enqueues when the buffered
channel has room and otherwise falls through to `default`, silently
dropping the metric.  The channel's buffer is modelled as a list. -/
def pushMetric (q : List String) (m : String) : List String :=
  if q.length < queueCapacity then q ++ [m] else q

end Statsd

section Theorems

open Metrics

/-- **C10.** `AggregateSample.Mean` is total at the empty edge case:
whenever `Count = 0`, `Mean` returns 0 — the `count == 0` branch
guards the division, so no division by a zero count is evaluated. -/
theorem aggregate_sample_mean_zero_count (a : AggregateSample) (h : a.Count = 0) :
    a.Mean = 0 := by
  simp [AggregateSample.Mean, h]

/-- Witness for `aggregate_sample_mean_zero_count` at the fresh sample. -/
theorem aggregate_sample_mean_zero_count_witness :
    AggregateSample.fresh.Count = 0 ∧ AggregateSample.fresh.Mean = 0 :=
  ⟨rfl, aggregate_sample_mean_zero_count AggregateSample.fresh rfl⟩

/-- **C9.** The statsd producer-side enqueue never blocks and never
fails: for every queue state, `pushMetric` either appends the metric
(when the queue is below capacity) or returns the queue unchanged
(silent drop when full); a queue within capacity stays within
capacity. -/
theorem push_metric_never_blocks (q : List String) (m : String) :
    (q.length < Statsd.queueCapacity → Statsd.pushMetric q m = q ++ [m]) ∧
    (Statsd.queueCapacity ≤ q.length → Statsd.pushMetric q m = q) ∧
    (q.length ≤ Statsd.queueCapacity →
      (Statsd.pushMetric q m).length ≤ Statsd.queueCapacity) := by
  refine ⟨fun h => ?_, fun h => ?_, fun h => ?_⟩
  · simp [Statsd.pushMetric, h]
  · simp [Statsd.pushMetric, Nat.not_lt.mpr h]
  · by_cases hq : q.length < Statsd.queueCapacity
    · simp [Statsd.pushMetric, hq]
      omega
    · simp [Statsd.pushMetric, hq]
      omega

/-- Witness for `push_metric_never_blocks`: pushing onto an empty
queue enqueues. -/
theorem push_metric_never_blocks_witness :
    ([] : List String).length < Statsd.queueCapacity ∧
      Statsd.pushMetric [] "metric" = ["metric"] :=
  ⟨by decide, (push_metric_never_blocks [] "metric").1 (by decide)⟩

/-- **C1.** Sweep-and-render presence matches expiry exactly.  With
expiration `e > 0`, an entry whose last update was `t0` survives a
sweep at time `now` (i.e. is both rendered and kept) iff it is static
(`canDelete = false`) or `now ≤ t0 + e`; in particular a dynamic entry
is present iff `now ≤ t0 + e` and a static entry is always present.
With `e = 0` the sweep removes nothing. -/
theorem collect_at_time_presence (e now : ℤ) (m : List (String × Prom.Gauge))
    (k : String) (g : Prom.Gauge) (he : 0 < e) :
    (((k, g) ∈ Prom.collectAtTime e now m) ↔
      ((k, g) ∈ m ∧ (g.canDelete = true → now ≤ g.updatedAt + e))) ∧
    (g.canDelete = false →
      (((k, g) ∈ Prom.collectAtTime e now m) ↔ (k, g) ∈ m)) ∧
    (∀ m' : List (String × Prom.Gauge), Prom.collectAtTime 0 now m' = m') := by
  have hne : e ≠ 0 := ne_of_gt he
  have hp : ∀ g' : Prom.Gauge,
      (!(decide (e ≠ 0) && decide (g'.updatedAt + e < now) && g'.canDelete)) = true ↔
        (g'.canDelete = true → now ≤ g'.updatedAt + e) := by
    intro g'
    by_cases hd : g'.canDelete <;> by_cases hlt : g'.updatedAt + e < now
    all_goals simp [hd, hlt, hne]
    all_goals omega
  refine ⟨?_, ?_, ?_⟩
  · rw [Prom.collectAtTime, List.mem_filter]
    exact and_congr_right fun _ => hp g
  · intro hd
    rw [Prom.collectAtTime, List.mem_filter, hp g]
    simp [hd]
  · intro m'
    rw [Prom.collectAtTime]
    apply List.filter_eq_self.mpr
    intro kv _
    simp

/-- Witness for `collect_at_time_presence`: with `e = 5`, `t0 = 0`,
`now = 3 ≤ t0 + e`, a dynamic entry is rendered. -/
theorem collect_at_time_presence_witness :
    (0 : ℤ) < 5 ∧
      (("k", { value := 1, updatedAt := 0, canDelete := true : Prom.Gauge }) ∈
        Prom.collectAtTime 5 3 [("k", { value := 1, updatedAt := 0, canDelete := true })]) :=
  ⟨by decide,
    ((collect_at_time_presence 5 3 [("k", ⟨1, 0, true⟩)] "k" ⟨1, 0, true⟩ (by decide)).1).mpr
      ⟨by simp, fun _ => by decide⟩⟩

end Theorems

section Theorems2

open Metrics

/-- **C6 counterexample.** Constructing the in-memory aggregator with
`interval = 2` and `retain = 1` (so `retain/intervalWidth < 1`) does
not return an error: `NewInmemSink` is a total constructor and
silently produces a sink with `maxIntervals = 0`. -/
theorem new_inmem_sink_silent_default_cex :
    (NewInmemSink 2 1).maxIntervals = 0 ∧ (NewInmemSink 2 1).interval = 2 ∧
      (NewInmemSink 2 1).retain = 1 :=
  ⟨rfl, rfl, rfl⟩

/-- **C6 (amended).** `NewInmemSink` performs no validation: for every
positive interval and nonnegative retention it constructs a sink with
`maxIntervals = retain.tdiv interval`; when `retain < interval` this
is silently 0 (never an error), and it is at least 1 exactly when
`interval ≤ retain`. -/
theorem new_inmem_sink_no_validation (i r : ℤ) (hi : 0 < i) (hr : 0 ≤ r) :
    (NewInmemSink i r).maxIntervals = r.tdiv i ∧
      (r < i → (NewInmemSink i r).maxIntervals = 0) ∧
      (i ≤ r → 1 ≤ (NewInmemSink i r).maxIntervals) := by
  have htd : r.tdiv i = r / i := Int.tdiv_eq_ediv hr (le_of_lt hi)
  refine ⟨rfl, fun hlt => ?_, fun hle => ?_⟩
  · show r.tdiv i = 0
    rw [htd]
    exact Int.ediv_eq_zero_of_lt hr hlt
  · show 1 ≤ r.tdiv i
    rw [htd]
    exact (Int.le_ediv_iff_mul_le hi).mpr (by omega)

/-- Witness for `new_inmem_sink_no_validation` at `interval = 2`,
`retain = 5`. -/
theorem new_inmem_sink_no_validation_witness :
    (0 : ℤ) < 2 ∧ (0 : ℤ) ≤ 5 ∧ (NewInmemSink 2 5).maxIntervals = (5 : ℤ).tdiv 2 :=
  ⟨by decide, by decide, (new_inmem_sink_no_validation 2 5 (by decide) (by decide)).1⟩

/-- **C4 counterexample.** An emission with 11 tags does fail on the
cloudwatch sink: `dimensions` hits the `logger.Panicf` branch (modelled
as `Except.error`), and so the datum construction performed by
`SetGauge`/`IncrCounter` on a key's first write panics instead of
truncating. -/
theorem cloudwatch_dimensions_panic_cex :
    CW.dimensions (List.replicate 11 { Name := "n", Value := "v" }) =
        Except.error "AWS does not support more than 10 dimentions" ∧
      CW.newDatum "key" 0 1 (List.replicate 11 { Name := "n", Value := "v" }) =
        Except.error "AWS does not support more than 10 dimentions" := by
  constructor
  · rfl
  · rfl

end Theorems2

section Theorems3

open Metrics

/-- `String.join` distributes over cons. -/
theorem string_join_cons (s : String) (l : List String) :
    String.join (s :: l) = s ++ String.join l := by
  rw [String.join_eq, String.join_eq]
  rfl

/-- Folding suffix appends equals appending the joined suffixes. -/
theorem foldl_append_join (f : Tag → String) (labels : List Tag) (init : String) :
    labels.foldl (fun h l => h ++ f l) init = init ++ String.join (labels.map f) := by
  induction labels generalizing init with
  | nil => simp [String.join_eq, String.append_empty]
  | cons l t ih =>
      rw [List.foldl_cons, ih, List.map_cons, string_join_cons, String.append_assoc]

/-- **C3 counterexample.** Two tag lists that are permutations of the
same multiset of pairs do not hash identically: supplying
`x=1, y=2` versus `y=2, x=1` for the same name parts produces
different identity strings from `flattenKey`. -/
theorem flatten_key_order_dependent_cex :
    ([{ Name := "x", Value := "1" }, { Name := "y", Value := "2" }] : List Tag).Perm
        [{ Name := "y", Value := "2" }, { Name := "x", Value := "1" }] ∧
      (Prom.flattenKey ["a"] [{ Name := "x", Value := "1" }, { Name := "y", Value := "2" }]).2 ≠
        (Prom.flattenKey ["a"] [{ Name := "y", Value := "2" }, { Name := "x", Value := "1" }]).2 := by
  constructor
  · decide
  · decide

/-- **C3 (amended).** The key flattener is deterministic in the
supplied tag order, not order-independent: the display key ignores the
tags entirely, and the identity string is exactly the flattened key
followed by `;name=value` for every tag in the order the tags were
supplied (this layer does no sorting), so two tag lists produce the
identical identity string when they are equal as sequences. -/
theorem flatten_key_hash_ordered (parts : List String) (labels : List Tag) :
    (Prom.flattenKey parts labels).1 = (Prom.flattenKey parts []).1 ∧
      (Prom.flattenKey parts labels).2 =
        (Prom.flattenKey parts []).2 ++
          String.join (labels.map (fun l => ";" ++ l.Name ++ "=" ++ l.Value)) := by
  constructor
  · rfl
  · show labels.foldl (fun h l => h ++ ";" ++ l.Name ++ "=" ++ l.Value)
        (Prom.sanitizeKey (String.intercalate "_" parts)) = _
    have hfun : (fun (h : String) (l : Tag) => h ++ ";" ++ l.Name ++ "=" ++ l.Value) =
        (fun (h : String) (l : Tag) => h ++ (";" ++ l.Name ++ "=" ++ l.Value)) := by
      funext h l
      simp only [String.append_assoc]
    rw [hfun, foldl_append_join (fun l => ";" ++ l.Name ++ "=" ++ l.Value)]
    rfl

end Theorems3

namespace PromCW

open Metrics

/-- The fold in `dimsOfNames` only appends: the result extends the
accumulator by dimensions whose names form a sublist of the traversed
names. -/
theorem dimStep_fold_sublist (m : Metric) (rd : List (String × String))
    (names : List String) (acc : List CW.Dimension × List CW.Dimension) :
    ∃ t₁ t₂,
      (names.foldl (dimStep m rd) acc).1 = acc.1 ++ t₁ ∧
      (names.foldl (dimStep m rd) acc).2 = acc.2 ++ t₂ ∧
      (t₁.map CW.Dimension.Name).Sublist names ∧
      (t₂.map CW.Dimension.Name).Sublist names := by
  induction names generalizing acc with
  | nil => exact ⟨[], [], by simp, by simp, by simp, by simp⟩
  | cons n rest ih =>
      rw [List.foldl_cons]
      obtain ⟨t₁, t₂, h1, h2, hs1, hs2⟩ := ih (dimStep m rd acc n)
      by_cases hn : n = ""
      · refine ⟨t₁, t₂, ?_, ?_, hs1.cons n, hs2.cons n⟩
        · rw [h1]; simp [dimStep, hn]
        · rw [h2]; simp [dimStep, hn]
      · by_cases hv : (lookupA n m).getD "" = ""
        · refine ⟨t₁, t₂, ?_, ?_, hs1.cons n, hs2.cons n⟩
          · rw [h1]; simp [dimStep, hn, hv]
          · rw [h2]; simp [dimStep, hn, hv]
        · by_cases hr : rd = []
          · refine ⟨{ Name := n, Value := (lookupA n m).getD "" : CW.Dimension } :: t₁, t₂,
              ?_, ?_, ?_, hs2.cons n⟩
            · rw [h1]; simp [dimStep, hn, hv, hr]
            · rw [h2]; simp [dimStep, hn, hv, hr]
            · simpa using hs1.cons₂ n
          · cases hl : lookupA n rd with
            | some repl =>
                refine ⟨{ Name := n, Value := (lookupA n m).getD "" : CW.Dimension } :: t₁,
                  { Name := n, Value := repl : CW.Dimension } :: t₂, ?_, ?_, ?_, ?_⟩
                · rw [h1]; simp [dimStep, hn, hv, hr, hl]
                · rw [h2]; simp [dimStep, hn, hv, hr, hl]
                · simpa using hs1.cons₂ n
                · simpa using hs2.cons₂ n
            | none =>
                refine ⟨{ Name := n, Value := (lookupA n m).getD "" : CW.Dimension } :: t₁,
                  { Name := n, Value := (lookupA n m).getD "" : CW.Dimension } :: t₂, ?_, ?_, ?_, ?_⟩
                · rw [h1]; simp [dimStep, hn, hv, hr, hl]
                · rw [h2]; simp [dimStep, hn, hv, hr, hl]
                · simpa using hs1.cons₂ n
                · simpa using hs2.cons₂ n

/-- The untruncated dimension lists carry their names in sorted order. -/
theorem rawDimensions_sorted (m : Metric) (rd : List (String × String)) :
    List.Sorted (fun a b => a ≤ b) ((rawDimensions m rd).1.map CW.Dimension.Name) ∧
    List.Sorted (fun a b => a ≤ b) ((rawDimensions m rd).2.map CW.Dimension.Name) := by
  rw [rawDimensions]
  set names := ((m.map Prod.fst).filter
    (fun k => !(k = metricNameLabel ∨ k = cwHighResLabel ∨ k = cwUnitLabel : Bool))).insertionSort
    (fun a b => a ≤ b) with hnames
  have hsorted : List.Sorted (fun a b => a ≤ b) names := by
    rw [hnames]
    exact List.sorted_insertionSort _ _
  obtain ⟨t₁, t₂, h1, h2, hs1, hs2⟩ := dimStep_fold_sublist m rd names ([], [])
  rw [dimsOfNames]
  constructor
  · rw [h1]
    simpa using List.Pairwise.sublist hs1 hsorted
  · rw [h2]
    simpa using List.Pairwise.sublist hs2 hsorted

/-- For a nonnegative bound the slice `dims[:num]` is a `take`. -/
theorem truncDims_eq_take (num : ℤ) (l : List CW.Dimension) (h : 0 ≤ num) :
    truncDims num l = l.take num.toNat := by
  rw [truncDims]
  split
  · rfl
  · rename_i hlt
    rw [List.take_of_length_le]
    omega

/-- The empty metric produces no dimensions before truncation. -/
theorem raw_empty (rd : List (String × String)) : rawDimensions [] rd = ([], []) := rfl

/-- A metric carrying only `__name__` produces no dimensions before
truncation (the name label is filtered out). -/
theorem raw_name_only (m : Metric) (rd : List (String × String))
    (h1 : m.length = 1) (h2 : (lookupA metricNameLabel m).isSome) :
    rawDimensions m rd = ([], []) := by
  match m, h1 with
  | [(k, v)], _ =>
      have hk : k = metricNameLabel := by
        by_contra hne
        simp [lookupA, hne] at h2
      subst hk
      rw [rawDimensions]
      simp [dimsOfNames]

end PromCW

section Theorems4

open Metrics

/-- **C4 (amended).** On the promcw bridge, oversized label sets never
fail the call: `getDimensions` is total and returns exactly the first
`num` dimensions of the deterministically built, name-sorted dimension
list (both for the plain and the replaced variant), so at most `num`
dimensions and in stable sorted order.  On the cloudwatch sink,
however, `dimensions` panics when more than 10 dimensions are supplied
(see the counterexample), so there an emission with more than 10 tags
fails instead of being truncated. -/
theorem get_dimensions_truncates (m : PromCW.Metric) (num : ℤ)
    (rd : List (String × String)) (h : 0 ≤ num) :
    PromCW.getDimensions m num rd =
      ((PromCW.rawDimensions m rd).1.take num.toNat,
        (PromCW.rawDimensions m rd).2.take num.toNat) ∧
    ((PromCW.getDimensions m num rd).1.length : ℤ) ≤ num ∧
    ((PromCW.getDimensions m num rd).2.length : ℤ) ≤ num ∧
    List.Sorted (fun a b => a ≤ b)
      ((PromCW.getDimensions m num rd).1.map CW.Dimension.Name) := by
  have hmain : PromCW.getDimensions m num rd =
      ((PromCW.rawDimensions m rd).1.take num.toNat,
        (PromCW.rawDimensions m rd).2.take num.toNat) := by
    rw [PromCW.getDimensions]
    split
    · rename_i hm
      have hm' : m = [] := List.length_eq_zero.mp hm
      subst hm'
      rw [PromCW.raw_empty]
      simp
    · split
      · rename_i hg
        rw [PromCW.raw_name_only m rd hg.1 hg.2]
        simp
      · show (PromCW.truncDims num (PromCW.rawDimensions m rd).1,
            PromCW.truncDims num (PromCW.rawDimensions m rd).2) = _
        rw [PromCW.truncDims_eq_take num _ h, PromCW.truncDims_eq_take num _ h]
  refine ⟨hmain, ?_, ?_, ?_⟩
  · rw [hmain]
    simp only [List.length_take]
    omega
  · rw [hmain]
    simp only [List.length_take]
    omega
  · rw [hmain]
    have := (PromCW.rawDimensions_sorted m rd).1
    simp only [List.map_take]
    exact List.Pairwise.sublist (List.take_sublist _ _) this

/-- Witness for `get_dimensions_truncates` at a one-label metric and
`num = 10`. -/
theorem get_dimensions_truncates_witness :
    (0 : ℤ) ≤ 10 ∧
      PromCW.getDimensions [("a", "1")] 10 [] =
        ((PromCW.rawDimensions [("a", "1")] []).1.take (10 : ℤ).toNat,
          (PromCW.rawDimensions [("a", "1")] []).2.take (10 : ℤ).toNat) :=
  ⟨by decide, (get_dimensions_truncates [("a", "1")] 10 [] (by decide)).1⟩

end Theorems4

section Theorems5

open Metrics

/-- Ingesting 1, 2, 3 into a fresh sample, evaluated. -/
theorem ingest_one_two_three (rd : ℚ) (now : ℤ) :
    ingestList [1, 2, 3] rd now =
      { Count := 3, Rate := 6 / rd, Sum := 6, SumSq := 14, Min := 1, Max := 3,
        LastUpdated := now } := by
  simp [ingestList, AggregateSample.Ingest, AggregateSample.fresh]
  norm_num

/-- Fewer than two ingested values give a zero divisor in `Stddev`. -/
theorem stddev_short_list (rd : ℚ) (now : ℤ) (vs : List ℚ) (h : vs.length < 2) :
    (ingestList vs rd now).Stddev = 0 := by
  rcases vs with _ | ⟨v, _ | ⟨w, t⟩⟩
  · rw [ingestList]
    simp [AggregateSample.Stddev, AggregateSample.fresh]
  · rw [ingestList]
    simp [AggregateSample.Stddev, AggregateSample.Ingest, AggregateSample.fresh]
  · simp at h
    omega

/-- **C7.** Ingesting 1, 2, 3 (in that order) into a fresh
`AggregateSample` yields `Count = 3`, `Sum = 6`, `Min = 1`, `Max = 3`,
`Mean = 2` and `Stddev = 1`, where `Stddev` is computed from count,
sum and sum-of-squares by
`sqrt((count·sumSq − sum²)/(count·(count−1)))`; and for any ingestion
sequence shorter than two values (count < 2) the standard deviation
is 0. -/
theorem aggregate_sample_of_123 (rd : ℚ) (now : ℤ) :
    ((ingestList [1, 2, 3] rd now).Count = 3 ∧
      (ingestList [1, 2, 3] rd now).Sum = 6 ∧
      (ingestList [1, 2, 3] rd now).Min = 1 ∧
      (ingestList [1, 2, 3] rd now).Max = 3 ∧
      (ingestList [1, 2, 3] rd now).Mean = 2 ∧
      (ingestList [1, 2, 3] rd now).Stddev = 1) ∧
    ∀ vs : List ℚ, vs.length < 2 → (ingestList vs rd now).Stddev = 0 := by
  constructor
  · rw [ingest_one_two_three]
    refine ⟨rfl, rfl, rfl, rfl, ?_, ?_⟩
    · rw [AggregateSample.Mean]
      norm_num
    · rw [AggregateSample.Stddev]
      norm_num
  · exact fun vs h => stddev_short_list rd now vs h

/-- Witness for `aggregate_sample_of_123` at `rateDenom = 1`,
`now = 0`, and the empty list for the short-list clause. -/
theorem aggregate_sample_of_123_witness :
    ([] : List ℚ).length < 2 ∧ (ingestList [1, 2, 3] 1 0).Count = 3 ∧
      (ingestList [] 1 0).Stddev = 0 :=
  ⟨by decide, (aggregate_sample_of_123 1 0).1.1, (aggregate_sample_of_123 1 0).2 [] (by decide)⟩

/-- `Ingest` increments the count. -/
theorem ingest_count (a : AggregateSample) (v rd : ℚ) (now : ℤ) :
    (a.Ingest v rd now).Count = a.Count + 1 := rfl

/-- Invariant of the ingestion fold, from any sample that has already
ingested at least one value: the running min only decreases, the
running max only increases, both stay attained (old value or a list
element), and every folded value is bracketed. -/
theorem ingest_foldl_minmax (l : List ℚ) (rd : ℚ) (now : ℤ) :
    ∀ a : AggregateSample, 1 ≤ a.Count →
      let b := l.foldl (fun x v => x.Ingest v rd now) a
      1 ≤ b.Count ∧ (b.Min = a.Min ∨ b.Min ∈ l) ∧ (b.Max = a.Max ∨ b.Max ∈ l) ∧
        b.Min ≤ a.Min ∧ a.Max ≤ b.Max ∧ ∀ v ∈ l, b.Min ≤ v ∧ v ≤ b.Max := by
  induction l with
  | nil => intro a ha; exact ⟨ha, Or.inl rfl, Or.inl rfl, le_refl _, le_refl _, by simp⟩
  | cons v t ih =>
      intro a ha
      rw [List.foldl_cons]
      set a' := a.Ingest v rd now with ha'
      have hmin : a'.Min = if v < a.Min then v else a.Min := by
        rw [ha', AggregateSample.Ingest]
        simp only []
        have : ¬(a.Count + 1 = 1) := by omega
        simp [this]
      have hmax : a'.Max = if a.Max < v then v else a.Max := by
        rw [ha', AggregateSample.Ingest]
        simp only []
        have : ¬(a.Count + 1 = 1) := by omega
        simp [this]
      obtain ⟨hb, hbmin, hbmax, hble, hbge, hall⟩ := ih a' (by
        rw [ha', ingest_count]
        omega)
      refine ⟨hb, ?_, ?_, ?_, ?_, ?_⟩
      · rcases hbmin with h | h
        · rw [h, hmin]
          split
          · exact Or.inr (List.mem_cons_self v t)
          · exact Or.inl rfl
        · exact Or.inr (List.mem_cons_of_mem v h)
      · rcases hbmax with h | h
        · rw [h, hmax]
          split
          · exact Or.inr (List.mem_cons_self v t)
          · exact Or.inl rfl
        · exact Or.inr (List.mem_cons_of_mem v h)
      · refine le_trans hble ?_
        rw [hmin]
        split
        · exact le_of_lt (by assumption)
        · exact le_refl _
      · refine le_trans ?_ hbge
        rw [hmax]
        split
        · exact le_of_lt (by assumption)
        · exact le_refl _
      · intro w hw
        rcases List.mem_cons.mp hw with rfl | hw'
        · have h1 : a'.Min ≤ w := by
            rw [hmin]
            split
            · exact le_refl w
            · exact le_of_not_lt (by assumption)
          have h2 : w ≤ a'.Max := by
            rw [hmax]
            split
            · exact le_refl w
            · exact le_of_not_lt (by assumption)
          exact ⟨le_trans hble h1, le_trans h2 hbge⟩
        · exact hall w hw'

/-- **C8.** Min/max bound invariant: for every non-empty sequence of
`Ingest` calls on a fresh `AggregateSample`, the stored `Min` and
`Max` are attained by ingested values (so they equal the minimum and
the maximum), and every ingested value `v` satisfies
`Min ≤ v ≤ Max`. -/
theorem aggregate_sample_min_max (vs : List ℚ) (rd : ℚ) (now : ℤ) (h : vs ≠ []) :
    ((ingestList vs rd now).Min ∈ vs ∧ (ingestList vs rd now).Max ∈ vs) ∧
      ∀ v ∈ vs, (ingestList vs rd now).Min ≤ v ∧ v ≤ (ingestList vs rd now).Max := by
  match vs, h with
  | v :: t, _ =>
      rw [ingestList, List.foldl_cons]
      set a1 := AggregateSample.fresh.Ingest v rd now with ha1
      have h1 : a1.Count = 1 ∧ a1.Min = v ∧ a1.Max = v := by
        rw [ha1, AggregateSample.Ingest, AggregateSample.fresh]
        norm_num
      obtain ⟨hb, hbmin, hbmax, hble, hbge, hall⟩ :=
        ingest_foldl_minmax t rd now a1 (by omega)
      refine ⟨⟨?_, ?_⟩, ?_⟩
      · rcases hbmin with hh | hh
        · rw [hh, h1.2.1]; exact List.mem_cons_self v t
        · exact List.mem_cons_of_mem v hh
      · rcases hbmax with hh | hh
        · rw [hh, h1.2.2]; exact List.mem_cons_self v t
        · exact List.mem_cons_of_mem v hh
      · intro w hw
        rcases List.mem_cons.mp hw with rfl | hw'
        · exact ⟨by rw [← h1.2.1]; exact hble, by rw [← h1.2.2]; exact hbge⟩
        · exact hall w hw'

/-- Witness for `aggregate_sample_min_max` on the sequence 2, 1, 3. -/
theorem aggregate_sample_min_max_witness :
    ([2, 1, 3] : List ℚ) ≠ [] ∧
      (((ingestList [2, 1, 3] 1 0).Min ∈ ([2, 1, 3] : List ℚ) ∧
          (ingestList [2, 1, 3] 1 0).Max ∈ ([2, 1, 3] : List ℚ)) ∧
        ∀ v ∈ ([2, 1, 3] : List ℚ),
          (ingestList [2, 1, 3] 1 0).Min ≤ v ∧ v ≤ (ingestList [2, 1, 3] 1 0).Max) :=
  ⟨by simp, aggregate_sample_min_max [2, 1, 3] 1 0 (by simp)⟩

end Theorems5

namespace Metrics

/-- Keeping at least one interval, a freshly appended single interval
survives the ring truncation. -/
theorem truncateIntervals_singleton (maxI : ℤ) (x : IntervalMetrics) (h : 1 ≤ maxI) :
    truncateIntervals maxI [x] = [x] := by
  rw [truncateIntervals]
  split
  · rename_i hle
    have h1 : maxI.toNat = 1 := by
      simp at hle
      omega
    simp [h1]
  · rfl

/-- `createInterval` on a sink with no intervals appends the new
current interval and truncates. -/
theorem createInterval_of_empty (intv : ℤ) (s : InmemSink) (h : s.intervals = []) :
    createInterval intv s =
      { s with intervals := truncateIntervals s.maxIntervals [NewIntervalMetrics intv] } := by
  rw [createInterval, h]
  rfl

/-- `createInterval` is the identity when the last interval is already
current. -/
theorem createInterval_of_current (intv : ℤ) (s : InmemSink) (iv : IntervalMetrics)
    (h : s.intervals.getLast? = some iv) (hiv : iv.Interval = intv) :
    createInterval intv s = s := by
  rw [createInterval, h]
  simp [hiv]

/-- `modifyCurrent` updates the last interval in place when it is the
current one. -/
theorem modifyCurrent_of_current (now : ℤ)
    (f : IntervalMetrics → List AggregateSample → IntervalMetrics × List AggregateSample)
    (s : InmemSink) (iv : IntervalMetrics)
    (h : s.intervals.getLast? = some iv) (hiv : iv.Interval = truncateTime now s.interval) :
    modifyCurrent now f s =
      { s with intervals := s.intervals.dropLast ++ [(f iv s.heap).1],
               heap := (f iv s.heap).2 } := by
  rw [modifyCurrent]
  simp only [createInterval_of_current _ s iv h hiv, h, hiv]
  simp

/-- `modifyCurrent` on a sink with no intervals (and a sane ring bound)
creates the current interval and updates it. -/
theorem modifyCurrent_of_empty (now : ℤ)
    (f : IntervalMetrics → List AggregateSample → IntervalMetrics × List AggregateSample)
    (s : InmemSink) (h : s.intervals = []) (hmax : 1 ≤ s.maxIntervals) :
    modifyCurrent now f s =
      { s with
        intervals := [(f (NewIntervalMetrics (truncateTime now s.interval)) s.heap).1]
        heap := (f (NewIntervalMetrics (truncateTime now s.interval)) s.heap).2 } := by
  rw [modifyCurrent]
  rw [createInterval_of_empty (truncateTime now s.interval) s h,
    truncateIntervals_singleton _ _ hmax]
  simp [NewIntervalMetrics]

/-- The first `IncrCounter` on a fresh sink allocates heap cell 0 and
registers the counter entry in a newly created current interval. -/
theorem incr_counter_first (i r now : ℤ) (key : String) (tags : List Tag) (v : ℚ)
    (hmax : 1 ≤ (NewInmemSink i r).maxIntervals) :
    (NewInmemSink i r).IncrCounter now key v tags =
      singleCounterState i r now key tags
        (AggregateSample.fresh.Ingest v (NewInmemSink i r).rateDenom now) := by
  rw [InmemSink.IncrCounter, modifyCurrent_of_empty now _ _ rfl hmax]
  simp only [NewIntervalMetrics, lookupA, heapIngest, insertA, List.nil_append, List.get?]
  rw [singleCounterState]
  simp [NewInmemSink, NewIntervalMetrics, truncateTime]

/-- The canonical single-counter state exposes its one interval as the
last. -/
theorem singleCounterState_getLast (i r now : ℤ) (key : String) (tags : List Tag)
    (a : AggregateSample) :
    (singleCounterState i r now key tags a).intervals.getLast? =
      some { Interval := truncateTime now i
             Gauges := []
             Counters := [((flattenKeyLabels key tags).1,
               { Name := (flattenKeyLabels key tags).2, ptr := 0, Labels := tags })]
             Samples := [] } := rfl

/-- A further `IncrCounter` for the same key at the same time ingests
through the shared heap cell. -/
theorem incr_counter_step (i r now : ℤ) (key : String) (tags : List Tag)
    (a : AggregateSample) (v : ℚ) :
    (singleCounterState i r now key tags a).IncrCounter now key v tags =
      singleCounterState i r now key tags
        (a.Ingest v (NewInmemSink i r).rateDenom now) := by
  rw [InmemSink.IncrCounter,
    modifyCurrent_of_current now _ _ _ (singleCounterState_getLast i r now key tags a) rfl]
  simp only [lookupA, if_pos rfl, heapIngest, List.get?, singleCounterState]
  simp [NewInmemSink]

/-- Folding further increments over the canonical state folds the
ingests over the aggregate. -/
theorem applyIncrs_single (i r now : ℤ) (key : String) (tags : List Tag) (l : List ℚ) :
    ∀ a : AggregateSample,
      applyIncrs now key tags l (singleCounterState i r now key tags a) =
        singleCounterState i r now key tags
          (l.foldl (fun x v => x.Ingest v (NewInmemSink i r).rateDenom now) a) := by
  induction l with
  | nil => intro a; rfl
  | cons v t ih =>
      intro a
      rw [applyIncrs, List.foldl_cons, ← applyIncrs, incr_counter_step, ih, List.foldl_cons]

/-- A nonempty increment sequence from a fresh sink lands in the
canonical single-counter state, with the aggregate being the ingest of
the whole sequence. -/
theorem applyIncrs_fresh (i r now : ℤ) (key : String) (tags : List Tag) (vs : List ℚ)
    (hmax : 1 ≤ (NewInmemSink i r).maxIntervals) (hne : vs ≠ []) :
    applyIncrs now key tags vs (NewInmemSink i r) =
      singleCounterState i r now key tags (ingestList vs (NewInmemSink i r).rateDenom now) := by
  match vs, hne with
  | v :: t, _ =>
      rw [applyIncrs, List.foldl_cons, ← applyIncrs, incr_counter_first i r now key tags v hmax,
        applyIncrs_single, ingestList, List.foldl_cons]

/-- The ingestion fold adds up sums and counts. -/
theorem ingest_foldl_sum_count (l : List ℚ) (rd : ℚ) (now : ℤ) :
    ∀ a : AggregateSample,
      (l.foldl (fun x v => x.Ingest v rd now) a).Sum = a.Sum + l.sum ∧
      (l.foldl (fun x v => x.Ingest v rd now) a).Count = a.Count + l.length := by
  induction l with
  | nil => intro a; simp
  | cons v t ih =>
      intro a
      rw [List.foldl_cons]
      obtain ⟨h1, h2⟩ := ih (a.Ingest v rd now)
      constructor
      · rw [h1]
        show a.Sum + v + t.sum = a.Sum + (v :: t).sum
        rw [List.sum_cons]
        ring
      · rw [h2, ingest_count]
        simp
        omega

/-- `getInterval` is the identity on the canonical state (the current
interval already exists). -/
theorem getInterval_single (i r now : ℤ) (key : String) (tags : List Tag)
    (a : AggregateSample) :
    getInterval now (singleCounterState i r now key tags a) =
      singleCounterState i r now key tags a := by
  rw [getInterval]
  exact createInterval_of_current _ _ _ (singleCounterState_getLast i r now key tags a) rfl

/-- `Data` on the canonical state returns its interval list unchanged. -/
theorem data_single (i r now : ℤ) (key : String) (tags : List Tag) (a : AggregateSample) :
    (singleCounterState i r now key tags a).Data now =
      (some (singleCounterState i r now key tags a).intervals,
        singleCounterState i r now key tags a) := by
  rw [InmemSink.Data, getInterval_single]
  rfl

/-- Dereferencing the counter entry of the canonical state reads heap
cell 0. -/
theorem readCounter_single (i r now : ℤ) (key : String) (tags : List Tag)
    (a : AggregateSample) (iv : IntervalMetrics)
    (hiv : (singleCounterState i r now key tags a).intervals.getLast? = some iv) :
    readCounter (singleCounterState i r now key tags a).heap iv
      (flattenKeyLabels key tags).1 = some a := by
  rw [singleCounterState_getLast] at hiv
  cases hiv
  rw [readCounter]
  simp [lookupA, singleCounterState]

end Metrics

section Theorems6

open Metrics

/-- **C2.** Counter accumulation is a commutative, associative sum:
after any nonempty sequence of `IncrCounter(key, vᵢ)` calls within one
aggregation interval on a freshly constructed inmem sink (with at
least one retained interval), the counter subsequently rendered
through `Data` for that key has `Sum` equal to the sum of all the
`vᵢ` and `Count` equal to their number; and any permutation of the
same increments renders the same sum — no increment is lost.  (Values
are exact rationals here; the float64 run differs only by rounding,
which is the tolerance the specification grants.) -/
theorem incr_counter_renders_sum (i r now : ℤ) (key : String) (tags : List Tag)
    (vs vs' : List ℚ) (hmax : 1 ≤ (NewInmemSink i r).maxIntervals) (hne : vs ≠ [])
    (hperm : vs.Perm vs') :
    ∃ iv iv' : IntervalMetrics,
      ((applyIncrs now key tags vs (NewInmemSink i r)).Data now).1 = some [iv] ∧
      ((applyIncrs now key tags vs' (NewInmemSink i r)).Data now).1 = some [iv'] ∧
      (readCounter (applyIncrs now key tags vs (NewInmemSink i r)).heap iv
        (flattenKeyLabels key tags).1).map AggregateSample.Sum = some vs.sum ∧
      (readCounter (applyIncrs now key tags vs (NewInmemSink i r)).heap iv
        (flattenKeyLabels key tags).1).map AggregateSample.Count = some (vs.length : ℤ) ∧
      (readCounter (applyIncrs now key tags vs' (NewInmemSink i r)).heap iv'
        (flattenKeyLabels key tags).1).map AggregateSample.Sum = some vs.sum := by
  have hne' : vs' ≠ [] := by
    intro hh
    subst hh
    exact hne (List.Perm.eq_nil hperm)
  have h1 := applyIncrs_fresh i r now key tags vs hmax hne
  have h2 := applyIncrs_fresh i r now key tags vs' hmax hne'
  set rd := (NewInmemSink i r).rateDenom with hrd
  set a1 := ingestList vs rd now with ha1
  set a2 := ingestList vs' rd now with ha2
  refine ⟨{ Interval := truncateTime now i
            Gauges := []
            Counters := [((flattenKeyLabels key tags).1,
              { Name := (flattenKeyLabels key tags).2, ptr := 0, Labels := tags })]
            Samples := [] },
          { Interval := truncateTime now i
            Gauges := []
            Counters := [((flattenKeyLabels key tags).1,
              { Name := (flattenKeyLabels key tags).2, ptr := 0, Labels := tags })]
            Samples := [] }, ?_, ?_, ?_, ?_, ?_⟩
  · rw [h1, data_single]
    rfl
  · rw [h2, data_single]
    rfl
  · rw [h1, readCounter_single i r now key tags a1 _ (singleCounterState_getLast i r now key tags a1)]
    have hh : a1.Sum = vs.sum := by
      rw [ha1, ingestList, (ingest_foldl_sum_count vs rd now AggregateSample.fresh).1]
      simp [AggregateSample.fresh]
    simp [hh]
  · rw [h1, readCounter_single i r now key tags a1 _ (singleCounterState_getLast i r now key tags a1)]
    have hh : a1.Count = (vs.length : ℤ) := by
      rw [ha1, ingestList, (ingest_foldl_sum_count vs rd now AggregateSample.fresh).2]
      simp [AggregateSample.fresh]
    simp [hh]
  · rw [h2, readCounter_single i r now key tags a2 _ (singleCounterState_getLast i r now key tags a2)]
    have hh : a2.Sum = vs'.sum := by
      rw [ha2, ingestList, (ingest_foldl_sum_count vs' rd now AggregateSample.fresh).1]
      simp [AggregateSample.fresh]
    simp [hh]
    exact (hperm.sum_eq).symm

/-- Witness for `incr_counter_renders_sum`: increments 1 then 2 versus
2 then 1 on a fresh one-interval sink. -/
theorem incr_counter_renders_sum_witness :
    1 ≤ (NewInmemSink 1 1).maxIntervals ∧ ([1, 2] : List ℚ) ≠ [] ∧
      ∃ iv iv' : IntervalMetrics,
        ((applyIncrs 0 "k" [] [1, 2] (NewInmemSink 1 1)).Data 0).1 = some [iv] ∧
        ((applyIncrs 0 "k" [] [2, 1] (NewInmemSink 1 1)).Data 0).1 = some [iv'] ∧
        (readCounter (applyIncrs 0 "k" [] [1, 2] (NewInmemSink 1 1)).heap iv
          (flattenKeyLabels "k" []).1).map AggregateSample.Sum = some ([1, 2] : List ℚ).sum ∧
        (readCounter (applyIncrs 0 "k" [] [1, 2] (NewInmemSink 1 1)).heap iv
          (flattenKeyLabels "k" []).1).map AggregateSample.Count =
            some ((([1, 2] : List ℚ).length : ℤ)) ∧
        (readCounter (applyIncrs 0 "k" [] [2, 1] (NewInmemSink 1 1)).heap iv'
          (flattenKeyLabels "k" []).1).map AggregateSample.Sum = some ([1, 2] : List ℚ).sum :=
  ⟨by decide, by decide,
    incr_counter_renders_sum 1 1 0 "k" [] [1, 2] [2, 1] (by decide) (by decide)
      (List.Perm.swap 2 1 [])⟩

end Theorems6

namespace Metrics

/-- `createInterval` never changes the scalar fields or the heap. -/
theorem createInterval_scalars (intv : ℤ) (s : InmemSink) :
    (createInterval intv s).interval = s.interval ∧
    (createInterval intv s).rateDenom = s.rateDenom ∧
    (createInterval intv s).heap = s.heap ∧
    (createInterval intv s).maxIntervals = s.maxIntervals := by
  rcases h : s.intervals.getLast? with _ | l
  · rw [createInterval, h]
    exact ⟨rfl, rfl, rfl, rfl⟩
  · rw [createInterval, h]
    by_cases hc : l.Interval = intv
    · simp [if_pos hc]
    · simp [if_neg hc]

/-- Ring truncation either empties the slice or keeps its last
element. -/
theorem truncateIntervals_last (m : ℤ) (l : List IntervalMetrics) :
    truncateIntervals m l = [] ∨ (truncateIntervals m l).getLast? = l.getLast? := by
  rw [truncateIntervals]
  split
  · by_cases hc : l.length ≤ l.length - m.toNat
    · left
      exact List.drop_eq_nil_of_le hc
    · right
      rw [List.getLast?_drop, if_neg hc]
  · right
    rfl

/-- After `getInterval`, the interval slice is either empty (only
possible with a non-positive ring bound) or its last element is the
current interval for `now`. -/
theorem getInterval_last (now : ℤ) (s : InmemSink) :
    (getInterval now s).intervals = [] ∨
      ∃ last, (getInterval now s).intervals.getLast? = some last ∧
        last.Interval = truncateTime now s.interval := by
  rw [getInterval]
  rcases h : s.intervals.getLast? with _ | l
  · rw [createInterval, h]
    simp only []
    rcases truncateIntervals_last s.maxIntervals
        (s.intervals ++ [NewIntervalMetrics (truncateTime now s.interval)]) with ht | ht
    · left
      exact ht
    · right
      refine ⟨NewIntervalMetrics (truncateTime now s.interval), ?_, rfl⟩
      rw [ht, List.getLast?_concat]
  · by_cases hl : l.Interval = truncateTime now s.interval
    · right
      rw [createInterval_of_current _ _ _ h hl]
      exact ⟨l, h, hl⟩
    · rw [createInterval, h]
      simp only [if_neg hl]
      rcases truncateIntervals_last s.maxIntervals
          (s.intervals ++ [NewIntervalMetrics (truncateTime now s.interval)]) with ht | ht
      · left
        exact ht
      · right
        refine ⟨NewIntervalMetrics (truncateTime now s.interval), ?_, rfl⟩
        rw [ht, List.getLast?_concat]

/-- When `Data` returns a snapshot, the snapshot is the interval list
of `getInterval`'s result, which is also the sink `Data` hands back. -/
theorem data_some (s : InmemSink) (now : ℤ) (snap : List IntervalMetrics)
    (h : (s.Data now).1 = some snap) :
    snap = (getInterval now s).intervals ∧ (s.Data now).2 = getInterval now s ∧ snap ≠ [] := by
  rw [InmemSink.Data] at h
  rcases hh : (getInterval now s).intervals with _ | ⟨x, t⟩
  · rw [hh] at h
    simp at h
  · rw [hh] at h
    simp at h
    subst h
    refine ⟨rfl, ?_, by simp⟩
    rw [InmemSink.Data, hh]

/-- Updating a valid heap cell makes the update visible at that cell. -/
theorem get_set_same {α : Type} (l : List α) (n : ℕ) (x a : α) (h : l.get? n = some a) :
    (l.set n x).get? n = some x := by
  have hlt : n < l.length := by
    by_contra hc
    rw [List.get?_eq_none.mpr (by omega)] at h
    exact Option.noConfusion h
  rw [List.get?_eq_get (by simpa using hlt)]
  simp [List.getElem_set_self]

end Metrics

section Theorems7

open Metrics

/-- **C5 (amended).** The snapshot returned by `InmemSink.Data` is
only a shallow copy: the interval list and the per-interval maps are
fresh, but a counter (or sample) entry carries a pointer to the live
`AggregateSample`, shared with the current interval.  Consequently,
for any counter key present in the current interval of the snapshot,
an `IncrCounter` performed after `Data` returns mutates the aggregate
observed through the already-returned snapshot: the value read through
the snapshot changes from `a` to `a.Ingest v`, whose `Sum` is larger
by exactly the ingested `v`. -/
theorem data_snapshot_shares_aggregate (s : InmemSink) (now : ℤ) (key : String) (v : ℚ)
    (tags : List Tag) (snap : List IntervalMetrics) (iv : IntervalMetrics)
    (sv : SampledValue) (a : AggregateSample)
    (h1 : (s.Data now).1 = some snap)
    (h2 : snap.getLast? = some iv)
    (h3 : lookupA (flattenKeyLabels key tags).1 iv.Counters = some sv)
    (h4 : (s.Data now).2.heap.get? sv.ptr = some a) :
    readCounter (s.Data now).2.heap iv (flattenKeyLabels key tags).1 = some a ∧
    readCounter (((s.Data now).2).IncrCounter now key v tags).heap iv
        (flattenKeyLabels key tags).1 =
      some (a.Ingest v (s.Data now).2.rateDenom now) ∧
    (a.Ingest v (s.Data now).2.rateDenom now).Sum = a.Sum + v := by
  obtain ⟨hsnap, hs2, hne⟩ := data_some s now snap h1
  have hglast : (s.Data now).2.intervals.getLast? = some iv := by
    rw [hs2, ← hsnap]
    exact h2
  have hiv : iv.Interval = truncateTime now (s.Data now).2.interval := by
    rcases getInterval_last now s with hnil | ⟨last, hl1, hl2⟩
    · exact absurd (hsnap.trans hnil) hne
    · have hli : last = iv := by
        rw [hs2] at hglast
        rw [hl1] at hglast
        exact Option.some_injective _ hglast
      rw [← hli, hl2, hs2, getInterval]
      rw [(createInterval_scalars _ _).1]
  refine ⟨?_, ?_, ?_⟩
  · rw [readCounter, h3]
    simpa using h4
  · rw [InmemSink.IncrCounter, modifyCurrent_of_current now _ _ iv hglast hiv]
    simp only [h3, heapIngest]
    rw [h4]
    rw [readCounter, h3]
    simp only [Option.some_bind]
    exact get_set_same _ _ _ _ h4
  · rw [AggregateSample.Ingest]

/-- Witness for `data_snapshot_shares_aggregate`: a sink holding one
counter `"c"` at heap cell 0; incrementing by 2 after the snapshot is
visible through the snapshot. -/
theorem data_snapshot_shares_aggregate_witness :
    readCounter (((singleCounterState 1 1 0 "c" []
          (AggregateSample.fresh.Ingest 1 (NewInmemSink 1 1).rateDenom 0)).Data 0).2).heap
        { Interval := truncateTime 0 1
          Gauges := []
          Counters := [((flattenKeyLabels "c" []).1,
            { Name := (flattenKeyLabels "c" []).2, ptr := 0, Labels := [] })]
          Samples := [] }
        (flattenKeyLabels "c" []).1 =
      some (AggregateSample.fresh.Ingest 1 (NewInmemSink 1 1).rateDenom 0) ∧
    readCounter ((((singleCounterState 1 1 0 "c" []
            (AggregateSample.fresh.Ingest 1 (NewInmemSink 1 1).rateDenom 0)).Data 0).2).IncrCounter
          0 "c" 2 []).heap
        { Interval := truncateTime 0 1
          Gauges := []
          Counters := [((flattenKeyLabels "c" []).1,
            { Name := (flattenKeyLabels "c" []).2, ptr := 0, Labels := [] })]
          Samples := [] }
        (flattenKeyLabels "c" []).1 =
      some ((AggregateSample.fresh.Ingest 1 (NewInmemSink 1 1).rateDenom 0).Ingest 2
        (((singleCounterState 1 1 0 "c" []
            (AggregateSample.fresh.Ingest 1 (NewInmemSink 1 1).rateDenom 0)).Data 0).2).rateDenom
        0) ∧
    ((AggregateSample.fresh.Ingest 1 (NewInmemSink 1 1).rateDenom 0).Ingest 2
        (((singleCounterState 1 1 0 "c" []
            (AggregateSample.fresh.Ingest 1 (NewInmemSink 1 1).rateDenom 0)).Data 0).2).rateDenom
        0).Sum =
      (AggregateSample.fresh.Ingest 1 (NewInmemSink 1 1).rateDenom 0).Sum + 2 :=
  data_snapshot_shares_aggregate
    (singleCounterState 1 1 0 "c" []
      (AggregateSample.fresh.Ingest 1 (NewInmemSink 1 1).rateDenom 0))
    0 "c" 2 []
    (singleCounterState 1 1 0 "c" []
      (AggregateSample.fresh.Ingest 1 (NewInmemSink 1 1).rateDenom 0)).intervals
    { Interval := truncateTime 0 1
      Gauges := []
      Counters := [((flattenKeyLabels "c" []).1,
        { Name := (flattenKeyLabels "c" []).2, ptr := 0, Labels := [] })]
      Samples := [] }
    { Name := (flattenKeyLabels "c" []).2, ptr := 0, Labels := [] }
    (AggregateSample.fresh.Ingest 1 (NewInmemSink 1 1).rateDenom 0)
    (by rw [data_single])
    (by rfl)
    (by rfl)
    (by rw [data_single]; rfl)

/-- **C5 counterexample.** On a fresh sink, increment counter `"c"` by
1, take the snapshot with `Data`, then increment by 2: the counter
value observed through the already-returned snapshot changes from 1 to
3, so the snapshot is not a deep, independent copy. -/
theorem inmem_snapshot_mutated_cex :
    (readCounter ((((NewInmemSink 1 1).IncrCounter 0 "c" 1 []).Data 0).2).heap
        (((((NewInmemSink 1 1).IncrCounter 0 "c" 1 []).Data 0).1.getD []).getLast?.getD
          (NewIntervalMetrics 0))
        (flattenKeyLabels "c" []).1).map AggregateSample.Sum = some 1 ∧
    (readCounter (((((NewInmemSink 1 1).IncrCounter 0 "c" 1 []).Data 0).2).IncrCounter
          0 "c" 2 []).heap
        (((((NewInmemSink 1 1).IncrCounter 0 "c" 1 []).Data 0).1.getD []).getLast?.getD
          (NewIntervalMetrics 0))
        (flattenKeyLabels "c" []).1).map AggregateSample.Sum = some 3 := by
  have hmax : 1 ≤ (NewInmemSink 1 1).maxIntervals := by decide
  rw [incr_counter_first 1 1 0 "c" [] 1 hmax, data_single]
  set a0 := AggregateSample.fresh.Ingest 1 (NewInmemSink 1 1).rateDenom 0 with ha0
  rw [incr_counter_step 1 1 0 "c" [] a0 2]
  have hiv : ((some (singleCounterState 1 1 0 "c" [] a0).intervals,
      singleCounterState 1 1 0 "c" [] a0).1.getD []).getLast?.getD (NewIntervalMetrics 0) =
      { Interval := truncateTime 0 1
        Gauges := []
        Counters := [((flattenKeyLabels "c" []).1,
          { Name := (flattenKeyLabels "c" []).2, ptr := 0, Labels := [] })]
        Samples := [] } := rfl
  rw [hiv]
  rw [readCounter_single 1 1 0 "c" [] a0 _ (singleCounterState_getLast 1 1 0 "c" [] a0),
    readCounter_single 1 1 0 "c" [] _ _ (singleCounterState_getLast 1 1 0 "c" [] _)]
  constructor
  · simp [ha0, AggregateSample.Ingest, AggregateSample.fresh]
  · simp [ha0, AggregateSample.Ingest, AggregateSample.fresh]
    norm_num

end Theorems7
